import Mathlib

/-!
# Showdown Winrate Checker — verification of the core pipeline

Shallow embedding of the data-acquisition pipeline of the
`showdown-winrate` repository: block-range chunking (`buildRanges`),
timestamp binary search (`findBlockAtOrAfter` / `findBlockAtOrBefore`),
log deduplication by `(transactionHash, logIndex)`, RPC retry
classification, per-entry decoding, and the win/loss aggregator.

The two copies of the core (the Next.js API route `src/pages/api/eth.ts`
and the single-file React variant) contain byte-identical algorithms;
each definition below names the function it embeds.  JavaScript numbers
are modelled as `Nat` (all quantities involved are non-negative block
numbers, timestamps, counts); `parseInt(x, 16)` applied to the hex
fields of RPC results is treated as already performed, so block numbers
and log indices enter the model as `Nat`.  The external `ethers`
`Interface.parseLog` call and the network are out of the repository and
enter as explicit function parameters.
-/

namespace Showdown

/-- `MAX_SPAN` (eth.ts line 4) / `MAX_BLOCK_SPAN` (React variant line 21):
the provider limit on the size of one `eth_getLogs` block range. -/
def MAX_SPAN : Nat := 100000

/-- A `{ from, to }` block range as produced by `buildRanges`.
`from` and `to` are reserved words in Lean, so the fields are spelled `fr` and `toB`. -/
structure BlockSpan where
  fr : Nat
  toB : Nat
deriving Repr, DecidableEq

/-- `buildRanges` (eth.ts lines 77–86): partition `[fromBlock, toBlock]`
into consecutive spans of at most `MAX_SPAN` blocks.  The source's
`while (s <= toBlock)` loop with `e = Math.min(s + MAX_SPAN - 1, toBlock)`
and `s = e + 1` becomes recursion on the remaining interval length. -/
def buildRanges (fromBlock toBlock : Nat) : List BlockSpan :=
  if _h : fromBlock ≤ toBlock then
    let e := min (fromBlock + MAX_SPAN - 1) toBlock
    { fr := fromBlock, toB := e } :: buildRanges (e + 1) toBlock
  else
    []
termination_by toBlock + 1 - fromBlock
decreasing_by
  simp only [MAX_SPAN]
  omega

/-- The block numbers covered by a span, as a list: `[fr, fr+1, …, to]`. -/
def spanBlocks (s : BlockSpan) : List Nat := List.range' s.fr (s.toB + 1 - s.fr)

theorem buildRanges_of_le {f t : Nat} (h : f ≤ t) :
    buildRanges f t =
      { fr := f, toB := min (f + MAX_SPAN - 1) t } ::
        buildRanges (min (f + MAX_SPAN - 1) t + 1) t := by
  rw [buildRanges]
  simp [h]

theorem buildRanges_of_gt {f t : Nat} (h : t < f) : buildRanges f t = [] := by
  rw [buildRanges]
  simp [Nat.not_le.mpr h]

/-- C1.  For `fromBlock ≤ toBlock`, `buildRanges` produces spans whose
concatenation is exactly the interval `[fromBlock, toBlock]` (no gaps,
no overlaps, ascending), the first span starts at `fromBlock`, the last
ends at `toBlock`, each span starts one past the previous span's end,
and every span satisfies `fr ≤ to` and `to - fr < MAX_SPAN`. -/
theorem buildRanges_spec (f t : Nat) (h : f ≤ t) :
    ((buildRanges f t).map spanBlocks).flatten = List.range' f (t + 1 - f) ∧
    (∀ s ∈ buildRanges f t, s.fr ≤ s.toB ∧ s.toB - s.fr < MAX_SPAN) ∧
    (buildRanges f t).head?.map BlockSpan.fr = some f ∧
    (buildRanges f t).getLast?.map BlockSpan.toB = some t ∧
    List.Chain' (fun a b => b.fr = a.toB + 1) (buildRanges f t) := by
  have hfe : f ≤ min (f + MAX_SPAN - 1) t := by
    simp only [MAX_SPAN]
    omega
  have hspan : min (f + MAX_SPAN - 1) t - f < MAX_SPAN := by
    simp only [MAX_SPAN]
    omega
  rw [buildRanges_of_le h]
  by_cases hc : min (f + MAX_SPAN - 1) t < t
  · -- the first span does not reach `t`; recurse on the rest
    obtain ⟨ihA, ihB, ihC, ihD, ihE⟩ := buildRanges_spec (min (f + MAX_SPAN - 1) t + 1) t hc
    set e := min (f + MAX_SPAN - 1) t with he
    have hne : buildRanges (e + 1) t ≠ [] := by
      intro hnil
      rw [hnil] at ihC
      simp at ihC
    obtain ⟨y, ys, hys⟩ := List.exists_cons_of_ne_nil hne
    refine ⟨?_, ?_, ?_, ?_, ?_⟩
    · have h1 : t - e + (e + 1 - f) = t + 1 - f := by omega
      have h2 : f + (e + 1 - f) = e + 1 := by omega
      have h3 : t + 1 - (e + 1) = t - e := by omega
      calc ((({ fr := f, toB := e } : BlockSpan) :: buildRanges (e + 1) t).map
              spanBlocks).flatten
          = spanBlocks { fr := f, toB := e } ++
              ((buildRanges (e + 1) t).map spanBlocks).flatten := by
            simp
        _ = List.range' f (e + 1 - f) ++ List.range' (e + 1) (t - e) := by
            rw [ihA, h3]; rfl
        _ = List.range' f (t + 1 - f) := by
            have h4 := List.range'_append_1 f (e + 1 - f) (t - e)
            rw [h2] at h4
            rw [h4, h1]
    · intro s hs
      rcases List.mem_cons.mp hs with rfl | hs
      · exact ⟨hfe, hspan⟩
      · exact ihB s hs
    · simp
    · rw [hys]
      rw [hys] at ihD
      simpa using ihD
    · rw [hys]
      rw [hys] at ihC ihE
      refine List.Chain'.cons ?_ ihE
      simp only [Option.map_eq_some', List.head?_cons] at ihC
      obtain ⟨a, ha, hfr⟩ := ihC
      cases ha
      exact hfr
  · -- the first span reaches `t`: it is the last one
    have het : min (f + MAX_SPAN - 1) t = t := by omega
    rw [het]
    rw [het] at hfe hspan
    have hnil : buildRanges (t + 1) t = [] := buildRanges_of_gt (by omega)
    rw [hnil]
    refine ⟨?_, ?_, ?_, ?_, ?_⟩
    · simp [spanBlocks]
    · intro s hs
      rcases List.mem_cons.mp hs with rfl | hs
      · exact ⟨hfe, hspan⟩
      · simp at hs
    · simp
    · simp
    · simp
termination_by t + 1 - f
decreasing_by omega

/-- Witness for C1 at `fromBlock = 3`, `toBlock = 7`. -/
theorem buildRanges_spec_witness :
    3 ≤ 7 ∧
    (((buildRanges 3 7).map spanBlocks).flatten = List.range' 3 (7 + 1 - 3) ∧
      (∀ s ∈ buildRanges 3 7, s.fr ≤ s.toB ∧ s.toB - s.fr < MAX_SPAN) ∧
      (buildRanges 3 7).head?.map BlockSpan.fr = some 3 ∧
      (buildRanges 3 7).getLast?.map BlockSpan.toB = some 7 ∧
      List.Chain' (fun a b => b.fr = a.toB + 1) (buildRanges 3 7)) :=
  ⟨by decide, buildRanges_spec 3 7 (by decide)⟩

/-! ## Block resolver (eth.ts lines 50–75)

The chain enters the model as a timestamp function `ts : Nat → Nat`
(`getBlockByNumber`) together with the numbers `earliest` and `latest`
of the first and last block (`getEarliest` / `getLatest`, so the
earliest block's timestamp is `ts earliest` and the latest's is
`ts latest`).  Monotonicity of timestamps over `[earliest, latest]` is
the environment invariant assumed by the spec. -/

/-- The `while (lo < hi)` loop of `findBlockAtOrAfter` (eth.ts lines
56–60): `mid = lo + ⌊(hi - lo) / 2⌋`; on `ts(mid) ≥ targetTs` narrow to
`[lo, mid]`, else to `[mid+1, hi]`. -/
def searchAfter (ts : Nat → Nat) (targetTs : Nat) (lo hi : Nat) : Nat :=
  if _h : lo < hi then
    let mid := lo + (hi - lo) / 2
    if targetTs ≤ ts mid then searchAfter ts targetTs lo mid
    else searchAfter ts targetTs (mid + 1) hi
  else lo
termination_by hi - lo
decreasing_by
  all_goals omega

/-- `findBlockAtOrAfter` (eth.ts lines 50–62). -/
def findBlockAtOrAfter (ts : Nat → Nat) (earliest latest : Nat) (targetTs : Nat) : Nat :=
  if targetTs ≤ ts earliest then earliest
  else if ts latest < targetTs then latest
  else searchAfter ts targetTs earliest latest

/-- The `while (lo < hi)` loop of `findBlockAtOrBefore` (eth.ts lines
69–73): upper-mid rounding `mid = lo + ⌊(hi - lo + 1) / 2⌋`; on
`ts(mid) ≤ targetTs` narrow to `[mid, hi]`, else to `[lo, mid-1]`. -/
def searchBefore (ts : Nat → Nat) (targetTs : Nat) (lo hi : Nat) : Nat :=
  if _h : lo < hi then
    let mid := lo + (hi - lo + 1) / 2
    if ts mid ≤ targetTs then searchBefore ts targetTs mid hi
    else searchBefore ts targetTs lo (mid - 1)
  else lo
termination_by hi - lo
decreasing_by
  all_goals omega

/-- `findBlockAtOrBefore` (eth.ts lines 63–75). -/
def findBlockAtOrBefore (ts : Nat → Nat) (earliest latest : Nat) (targetTs : Nat) : Nat :=
  if targetTs < ts earliest then earliest
  else if ts latest ≤ targetTs then latest
  else searchBefore ts targetTs earliest latest

/-- The loop of `findBlockAtOrBefore` with an explicit iteration budget:
`none` means the budget was exhausted before the loop guard `lo < hi`
became false.  Used to state that the loop terminates within `hi - lo`
iterations. -/
def searchBeforeFuel (ts : Nat → Nat) (targetTs : Nat) : Nat → Nat → Nat → Option Nat
  | 0, lo, hi => if lo < hi then none else some lo
  | fuel + 1, lo, hi =>
    if lo < hi then
      let mid := lo + (hi - lo + 1) / 2
      if ts mid ≤ targetTs then searchBeforeFuel ts targetTs fuel mid hi
      else searchBeforeFuel ts targetTs fuel lo (mid - 1)
    else some lo

theorem searchBefore_of_ge {ts : Nat → Nat} {targetTs lo hi : Nat} (h : hi ≤ lo) :
    searchBefore ts targetTs lo hi = lo := by
  rw [searchBefore]
  simp [Nat.not_lt.mpr h]

theorem searchBeforeFuel_eq (ts : Nat → Nat) (targetTs : Nat) :
    ∀ fuel lo hi, hi - lo ≤ fuel →
      searchBeforeFuel ts targetTs fuel lo hi = some (searchBefore ts targetTs lo hi) := by
  intro fuel
  induction fuel with
  | zero =>
    intro lo hi hle
    have h : hi ≤ lo := by omega
    rw [searchBeforeFuel, searchBefore_of_ge h]
    simp [Nat.not_lt.mpr h]
  | succ f ih =>
    intro lo hi hle
    rw [searchBeforeFuel, searchBefore]
    by_cases hlt : lo < hi
    · simp only [if_pos hlt, dif_pos hlt]
      split
      · exact ih _ _ (by omega)
      · exact ih _ _ (by omega)
    · simp [hlt]

/-- C7.  In the binary-search loop of `findBlockAtOrBefore`, whenever
`lo < hi` the upper-mid rounding `mid = lo + ⌊(hi - lo + 1) / 2⌋`
satisfies `lo < mid ≤ hi`, so both branches (`lo = mid` and
`hi = mid - 1`) strictly shrink the interval; consequently the loop
reaches `lo = hi` and returns within `hi - lo` iterations for every
input. -/
theorem findBlockAtOrBefore_terminates (ts : Nat → Nat) (targetTs lo hi : Nat) :
    (lo < hi →
      lo < lo + (hi - lo + 1) / 2 ∧
      lo + (hi - lo + 1) / 2 ≤ hi ∧
      hi - (lo + (hi - lo + 1) / 2) < hi - lo ∧
      (lo + (hi - lo + 1) / 2 - 1) - lo < hi - lo) ∧
    searchBeforeFuel ts targetTs (hi - lo) lo hi = some (searchBefore ts targetTs lo hi) := by
  constructor
  · intro h
    refine ⟨by omega, by omega, by omega, by omega⟩
  · exact searchBeforeFuel_eq ts targetTs (hi - lo) lo hi (Nat.le_refl _)

/-- Witness for C7 with `ts n = n`, `targetTs = 5`, on the interval `[0, 10]`. -/
theorem findBlockAtOrBefore_terminates_witness :
    (0 < 0 + (10 - 0 + 1) / 2 ∧
      0 + (10 - 0 + 1) / 2 ≤ 10 ∧
      10 - (0 + (10 - 0 + 1) / 2) < 10 - 0 ∧
      (0 + (10 - 0 + 1) / 2 - 1) - 0 < 10 - 0) ∧
    searchBeforeFuel (fun n => n) 5 (10 - 0) 0 10 =
      some (searchBefore (fun n => n) 5 0 10) :=
  ⟨(findBlockAtOrBefore_terminates (fun n => n) 5 0 10).1 (by decide),
    (findBlockAtOrBefore_terminates (fun n => n) 5 0 10).2⟩

theorem searchAfter_spec (ts : Nat → Nat) (targetTs lo hi : Nat)
    (hle : lo ≤ hi) (hhi : targetTs ≤ ts hi)
    (hmono : ∀ i j, lo ≤ i → i ≤ j → j ≤ hi → ts i ≤ ts j) :
    lo ≤ searchAfter ts targetTs lo hi ∧
    searchAfter ts targetTs lo hi ≤ hi ∧
    targetTs ≤ ts (searchAfter ts targetTs lo hi) ∧
    ∀ k, lo ≤ k → k < searchAfter ts targetTs lo hi → ts k < targetTs := by
  rw [searchAfter]
  by_cases hlt : lo < hi
  · rw [dif_pos hlt]
    have hmid1 : lo ≤ lo + (hi - lo) / 2 := by omega
    have hmid2 : lo + (hi - lo) / 2 < hi := by omega
    by_cases hts : targetTs ≤ ts (lo + (hi - lo) / 2)
    · rw [if_pos hts]
      obtain ⟨r1, r2, r3, r4⟩ :=
        searchAfter_spec ts targetTs lo (lo + (hi - lo) / 2) hmid1 hts
          (fun i j hi' hij hj => hmono i j hi' hij (by omega))
      exact ⟨r1, by omega, r3, r4⟩
    · rw [if_neg hts]
      have hts' : ts (lo + (hi - lo) / 2) < targetTs := by omega
      obtain ⟨r1, r2, r3, r4⟩ :=
        searchAfter_spec ts targetTs (lo + (hi - lo) / 2 + 1) hi (by omega) hhi
          (fun i j hi' hij hj => hmono i j (by omega) hij hj)
      refine ⟨by omega, r2, r3, ?_⟩
      intro k hk1 hk2
      by_cases hkm : k ≤ lo + (hi - lo) / 2
      · exact Nat.lt_of_le_of_lt (hmono k (lo + (hi - lo) / 2) hk1 hkm (by omega)) hts'
      · exact r4 k (by omega) hk2
  · rw [dif_neg hlt]
    have : lo = hi := by omega
    subst this
    exact ⟨Nat.le_refl _, Nat.le_refl _, hhi, fun k hk1 hk2 => absurd hk1 (by omega)⟩
termination_by hi - lo
decreasing_by
  all_goals omega

/-- C2.  On a chain with monotonic timestamps, `findBlockAtOrAfter`
returns the smallest block number in `[earliest, latest]` whose
timestamp is ≥ `targetTs` whenever one exists (in particular it returns
`earliest` when `targetTs ≤ ts earliest`), and returns `latest` when
`targetTs` exceeds the latest block's timestamp. -/
theorem findBlockAtOrAfter_spec (ts : Nat → Nat) (earliest latest targetTs : Nat)
    (hel : earliest ≤ latest)
    (hmono : ∀ i j, earliest ≤ i → i ≤ j → j ≤ latest → ts i ≤ ts j) :
    (targetTs ≤ ts latest →
      earliest ≤ findBlockAtOrAfter ts earliest latest targetTs ∧
      findBlockAtOrAfter ts earliest latest targetTs ≤ latest ∧
      targetTs ≤ ts (findBlockAtOrAfter ts earliest latest targetTs) ∧
      ∀ k, earliest ≤ k → k < findBlockAtOrAfter ts earliest latest targetTs →
        ts k < targetTs) ∧
    (ts latest < targetTs → findBlockAtOrAfter ts earliest latest targetTs = latest) ∧
    (targetTs ≤ ts earliest → findBlockAtOrAfter ts earliest latest targetTs = earliest) := by
  unfold findBlockAtOrAfter
  by_cases h1 : targetTs ≤ ts earliest
  · rw [if_pos h1]
    refine ⟨?_, ?_, fun _ => rfl⟩
    · intro _
      exact ⟨Nat.le_refl _, hel, h1, fun k hk1 hk2 => absurd hk1 (by omega)⟩
    · intro h2
      have := hmono earliest latest (Nat.le_refl _) hel (Nat.le_refl _)
      omega
  · rw [if_neg h1]
    by_cases h2 : ts latest < targetTs
    · rw [if_pos h2]
      exact ⟨fun h3 => absurd h3 (by omega), fun _ => rfl, fun h3 => absurd h3 h1⟩
    · rw [if_neg h2]
      refine ⟨?_, fun h3 => absurd h3 h2, fun h3 => absurd h3 h1⟩
      intro _
      exact searchAfter_spec ts targetTs earliest latest hel (by omega) hmono

/-- Witness for C2 with the identity timestamp sequence on blocks
`[0, 10]` and `targetTs = 7`. -/
theorem findBlockAtOrAfter_spec_witness :
    (0 : Nat) ≤ 10 ∧
    (0 ≤ findBlockAtOrAfter (fun n => n) 0 10 7 ∧
      findBlockAtOrAfter (fun n => n) 0 10 7 ≤ 10 ∧
      7 ≤ (fun n => n) (findBlockAtOrAfter (fun n => n) 0 10 7) ∧
      ∀ k, 0 ≤ k → k < findBlockAtOrAfter (fun n => n) 0 10 7 → (fun n => n) k < 7) :=
  ⟨by decide,
    (findBlockAtOrAfter_spec (fun n => n) 0 10 7 (by decide)
      (fun i j _ hij _ => hij)).1 (by decide)⟩

/-! ## RPC client with retry (eth.ts lines 15–38, `rpc` /
React variant lines 54–77, `rpcCallWithRetry`)

One fetch attempt yields either a thrown network exception (modelled
`none`) or an HTTP status together with the parsed JSON body.  Only the
parts of the body the classifier inspects are modelled: whether the
body is a single object or a batch array, and where `error` fields are
present. -/

/-- The parsed JSON-RPC response body, as inspected by `rpc`: a single
object that does or does not carry an `error` field (a `null` body
behaves like `single false`, since `j && j.error` is then falsy), or a
batch array where each element may carry an `error` field. -/
inductive RpcJson where
  | single (hasError : Bool)
  | batch (items : List Bool)
deriving Repr, DecidableEq

/-- The error-field check of `rpc` (eth.ts lines 24–29):
`Array.isArray(j) ? j.find(x => x && x.error) : j && j.error`. -/
def jsonHasError : RpcJson → Bool
  | .single e => e
  | .batch items => items.any id

/-- `res.ok`: HTTP status in the 2xx range. -/
def resOk (status : Nat) : Bool := 200 ≤ status && status < 300

/-- One body iteration of the retry loop of `rpc` (eth.ts lines 18–30):
`none` means the attempt threw (and the loop retries), `some j` means
the attempt returned `j` as success.  Note the source only throws on
`!res.ok` when the status is 429 or 5xx; any other non-2xx status falls
through to the JSON error-field check. -/
def rpcAttempt (status : Nat) (j : RpcJson) : Option RpcJson :=
  if !resOk status && (status == 429 || (500 ≤ status && status < 600)) then none
  else if jsonHasError j then none
  else some j

/-- The retry loop of `rpc` (eth.ts lines 17–36) over the sequence of
attempt outcomes supplied by the environment, one per loop iteration
(at most `attempts` of them); `none` in the input is a thrown network
exception.  The loop returns the first successful attempt's body;
exhausting all attempts re-throws (`none`). -/
def rpcLoop : List (Option (Nat × RpcJson)) → Option RpcJson
  | [] => none
  | none :: rest => rpcLoop rest
  | some (status, j) :: rest =>
    match rpcAttempt status j with
    | some r => some r
    | none => rpcLoop rest

/-- C5 counterexample: an HTTP 404 response whose JSON body carries no
`error` field is returned as success by `rpc`, although 404 is not 2xx
— the status guard only throws for 429 and 5xx, so the claimed "2xx
only" success criterion is false. -/
theorem rpc_2xx_only_counterexample :
    rpcAttempt 404 (RpcJson.single false) = some (RpcJson.single false) ∧
    resOk 404 = false ∧
    rpcLoop [some (404, RpcJson.single false)] = some (RpcJson.single false) := by
  decide

/-- C5 (amended).  An attempt is returned as success exactly when the
status is neither 429 nor 5xx and the parsed JSON carries no error
field (so a non-2xx status outside 429/5xx with an error-free body is
also success); every other outcome — HTTP 429, 5xx, a thrown network
exception, or any JSON-RPC `error` field — makes the loop move on to
the next attempt, and a success is returned unchanged. -/
theorem rpc_retry_classification (status : Nat) (j : RpcJson)
    (rest : List (Option (Nat × RpcJson))) :
    ((rpcAttempt status j).isSome ↔
      (status ≠ 429 ∧ ¬(500 ≤ status ∧ status < 600) ∧ jsonHasError j = false)) ∧
    (rpcAttempt status j = none → rpcLoop (some (status, j) :: rest) = rpcLoop rest) ∧
    rpcLoop (none :: rest) = rpcLoop rest ∧
    (∀ r, rpcAttempt status j = some r → r = j) := by
  refine ⟨?_, ?_, rfl, ?_⟩
  · unfold rpcAttempt resOk
    split
    · next hcond =>
      simp only [Bool.and_eq_true, Bool.not_eq_true', Bool.and_eq_false_iff,
        Bool.or_eq_true, beq_iff_eq, decide_eq_true_eq, decide_eq_false_iff_not] at hcond
      simp only [Option.isSome_none, Bool.false_eq_true, false_iff, not_and]
      intro hc1 hc2 _
      obtain ⟨h2xx, h45⟩ := hcond
      rcases h45 with h429 | h5
      · exact hc1 h429
      · exact absurd h5.1 (by omega)
    · next hcond =>
      simp only [Bool.and_eq_true, Bool.not_eq_true', Bool.and_eq_false_iff,
        Bool.or_eq_true, beq_iff_eq, decide_eq_true_eq, decide_eq_false_iff_not,
        not_and, not_or] at hcond
      split
      · next hje =>
        simp only [Option.isSome_none, Bool.false_eq_true, false_iff, not_and]
        intro _ _
        simp [hje]
      · next hje =>
        simp only [Option.isSome_some, true_iff]
        by_cases h2xx : 200 ≤ status ∧ status < 300
        · exact ⟨by omega, by omega, by simpa using hje⟩
        · have hcc := hcond (by omega)
          refine ⟨hcc.1, ?_, by simpa using hje⟩
          intro hs
          exact hcc.2 hs.1 hs.2
  · intro h
    simp only [rpcLoop, h]
  · intro r h
    unfold rpcAttempt at h
    split at h
    · simp at h
    · split at h
      · simp at h
      · injection h with h2
        exact h2.symm

/-- Witness for C5: an HTTP 429 attempt is retried (the loop moves past it). -/
theorem rpc_retry_classification_witness :
    rpcLoop (some (429, RpcJson.single false) :: []) = rpcLoop [] :=
  (rpc_retry_classification 429 (RpcJson.single false) []).2.1 (by decide)

/-! ## Raw logs and deduplication (eth.ts lines 117–122 /
React variant lines 156–161)

A raw `eth_getLogs` entry carries the fields the pipeline reads:
`transactionHash`, `logIndex` (hex in transit, here already parsed to
`Nat`), `blockNumber` (likewise), and the `topics`/`data` payload that
is handed to the decoder.  The dedup key is the string
`transactionHash ++ "-" ++ logIndex` rendered in decimal (a JavaScript
number interpolates in decimal, hence `Nat.repr`).

A JavaScript `Map` is modelled as an association list in insertion
order: `set` on a present key replaces the value in place, `set` on an
absent key appends, and `values()` lists the values in that order. -/

structure RawLogEntry where
  transactionHash : String
  logIndex : Nat
  blockNumber : Nat
  topics : List String
  data : String
deriving Repr, DecidableEq

/-- The dedup key built at eth.ts line 119 from `log.transactionHash`
and `parseInt(log.logIndex, 16)`. -/
def logKey (log : RawLogEntry) : String :=
  log.transactionHash ++ "-" ++ Nat.repr log.logIndex

/-- `Map.prototype.set`: replace in place when the key is present,
append otherwise. -/
def mapSet (m : List (String × RawLogEntry)) (k : String) (v : RawLogEntry) :
    List (String × RawLogEntry) :=
  if m.any (fun p => p.1 == k) then
    m.map (fun p => if p.1 == k then (k, v) else p)
  else
    m ++ [(k, v)]

/-- One iteration of the dedup loop: `uniq.set(key, log)`. -/
def dedupStep (m : List (String × RawLogEntry)) (log : RawLogEntry) :
    List (String × RawLogEntry) :=
  mapSet m (logKey log) log

/-- The dedup pass (eth.ts lines 117–122): build the `uniq` map over
all raw logs, then take `Array.from(uniq.values())`. -/
def dedupValues (logs : List RawLogEntry) : List RawLogEntry :=
  (logs.foldl dedupStep []).map Prod.snd

/-! ### Injectivity of the dedup key

The key string determines the `(transactionHash, logIndex)` pair: the
decimal rendering of the log index contains no `'-'`, so the last `'-'`
of the key is the separator, and `Nat.repr` is injective. -/

theorem digitChar_ne_dash (n : Nat) : Nat.digitChar n ≠ '-' := by
  by_cases h16 : n < 16
  · exact (by decide : ∀ m < 16, Nat.digitChar m ≠ '-') n h16
  · unfold Nat.digitChar
    repeat rw [if_neg (by omega)]
    decide

theorem digitChar_inj_lt : ∀ a < 10, ∀ b < 10,
    Nat.digitChar a = Nat.digitChar b → a = b := by
  decide

theorem toDigitsCore_no_dash : ∀ (fuel n : Nat) (ds : List Char),
    '-' ∉ ds → '-' ∉ Nat.toDigitsCore 10 fuel n ds := by
  intro fuel
  induction fuel with
  | zero =>
    intro n ds h
    simpa [Nat.toDigitsCore] using h
  | succ f ih =>
    intro n ds h
    rw [Nat.toDigitsCore]
    split
    · intro hm
      rcases List.mem_cons.mp hm with hc | hc
      · exact digitChar_ne_dash _ hc.symm
      · exact h hc
    · refine ih _ _ ?_
      intro hm
      rcases List.mem_cons.mp hm with hc | hc
      · exact digitChar_ne_dash _ hc.symm
      · exact h hc

theorem repr_no_dash (n : Nat) : '-' ∉ (Nat.repr n).data :=
  toDigitsCore_no_dash (n + 1) n [] (by simp)

theorem toDigitsCore_acc (f : Nat) : ∀ (n : Nat) (ds : List Char), n < f →
    Nat.toDigitsCore 10 f n ds = Nat.toDigitsCore 10 f n [] ++ ds := by
  induction f with
  | zero =>
    intro n ds h
    omega
  | succ f ih =>
    intro n ds h
    rw [Nat.toDigitsCore, Nat.toDigitsCore]
    by_cases hz : n / 10 = 0
    · rw [if_pos hz, if_pos hz]
      rfl
    · rw [if_neg hz, if_neg hz]
      have hlt : n / 10 < f := by omega
      rw [ih (n / 10) _ hlt, ih (n / 10) [Nat.digitChar (n % 10)] hlt]
      simp

theorem toDigitsCore_fuel : ∀ (f g n : Nat), n < f → n < g →
    Nat.toDigitsCore 10 f n [] = Nat.toDigitsCore 10 g n [] := by
  intro f
  induction f with
  | zero =>
    intro g n h
    omega
  | succ f ih =>
    intro g n hf hg
    match g, hg with
    | g + 1, hg =>
      rw [Nat.toDigitsCore, Nat.toDigitsCore]
      by_cases hz : n / 10 = 0
      · rw [if_pos hz, if_pos hz]
      · rw [if_neg hz, if_neg hz]
        by_cases hn0 : n = 0
        · subst hn0
          simp at hz
        · have h1 : n / 10 < n := by omega
          rw [toDigitsCore_acc f _ _ (by omega), toDigitsCore_acc g _ _ (by omega),
            ih g (n / 10) (by omega) (by omega)]

/-- The canonical recursion satisfied by `Nat.toDigits 10`. -/
theorem toDigits_step (n : Nat) :
    Nat.toDigits 10 n =
      if n < 10 then [Nat.digitChar n]
      else Nat.toDigits 10 (n / 10) ++ [Nat.digitChar (n % 10)] := by
  rw [Nat.toDigits, Nat.toDigitsCore]
  by_cases hz : n / 10 = 0
  · rw [if_pos hz, if_pos (by omega)]
    have hmod : n % 10 = n := by omega
    rw [hmod]
  · rw [if_neg hz, if_neg (by omega)]
    rw [toDigitsCore_acc n _ _ (by omega)]
    rw [Nat.toDigits]
    rw [toDigitsCore_fuel n (n / 10 + 1) (n / 10) (by omega) (by omega)]

theorem toDigits_ne_nil (n : Nat) : Nat.toDigits 10 n ≠ [] := by
  rw [toDigits_step]
  split
  · simp
  · simp

theorem toDigits_inj (n : Nat) : ∀ m, Nat.toDigits 10 n = Nat.toDigits 10 m → n = m := by
  induction n using Nat.strong_induction_on with
  | _ n ih =>
    intro m h
    rw [toDigits_step n, toDigits_step m] at h
    by_cases hn : n < 10 <;> by_cases hm : m < 10
    · rw [if_pos hn, if_pos hm] at h
      have hc : Nat.digitChar n = Nat.digitChar m := by
        injection h
      exact digitChar_inj_lt n hn m hm hc
    · rw [if_pos hn, if_neg hm] at h
      have hlen := congrArg List.length h
      rw [List.length_append] at hlen
      simp only [List.length_cons, List.length_nil] at hlen
      have hnil : (Nat.toDigits 10 (m / 10)).length = 0 := by omega
      exact absurd (List.eq_nil_of_length_eq_zero hnil) (toDigits_ne_nil _)
    · rw [if_neg hn, if_pos hm] at h
      have hlen := congrArg List.length h
      rw [List.length_append] at hlen
      simp only [List.length_cons, List.length_nil] at hlen
      have hnil : (Nat.toDigits 10 (n / 10)).length = 0 := by omega
      exact absurd (List.eq_nil_of_length_eq_zero hnil) (toDigits_ne_nil _)
    · rw [if_neg hn, if_neg hm] at h
      have h' := congrArg List.reverse h
      simp only [List.reverse_append, List.reverse_cons, List.reverse_nil,
        List.nil_append, List.singleton_append] at h'
      injection h' with hc hrev
      have hdiv : n / 10 = m / 10 :=
        ih (n / 10) (by omega) (m / 10) (List.reverse_injective hrev)
      have hmod : n % 10 = m % 10 :=
        digitChar_inj_lt (n % 10) (by omega) (m % 10) (by omega) hc
      omega

theorem string_data_inj {s t : String} (h : s.data = t.data) : s = t :=
  congrArg String.mk h

theorem nat_repr_inj {n m : Nat} (h : Nat.repr n = Nat.repr m) : n = m :=
  toDigits_inj n m (congrArg String.data h)

theorem append_dash_cancel : ∀ (a : List Char) {b s1 s2 : List Char}, '-' ∉ s1 → '-' ∉ s2 →
    a ++ '-' :: s1 = b ++ '-' :: s2 → a = b ∧ s1 = s2 := by
  intro a
  induction a with
  | nil =>
    intro b s1 s2 h1 h2 h
    cases b with
    | nil =>
      simpa using h
    | cons y b' =>
      simp only [List.nil_append, List.cons_append] at h
      injection h with hy hs
      exfalso
      apply h1
      rw [hs]
      exact List.mem_append.mpr (Or.inr (List.mem_cons_self _ _))
  | cons x a' ih =>
    intro b s1 s2 h1 h2 h
    cases b with
    | nil =>
      simp only [List.nil_append, List.cons_append] at h
      injection h with hy hs
      exfalso
      apply h2
      rw [← hs]
      exact List.mem_append.mpr (Or.inr (List.mem_cons_self _ _))
    | cons y b' =>
      simp only [List.cons_append] at h
      injection h with hxy hs
      obtain ⟨hab, hss⟩ := ih h1 h2 hs
      exact ⟨by rw [hxy, hab], hss⟩

theorem logKey_inj {l1 l2 : RawLogEntry} (h : logKey l1 = logKey l2) :
    l1.transactionHash = l2.transactionHash ∧ l1.logIndex = l2.logIndex := by
  have hd := congrArg String.data h
  simp only [logKey, String.data_append] at hd
  rw [List.append_assoc, List.append_assoc] at hd
  simp only [List.singleton_append] at hd
  obtain ⟨hth, hrepr⟩ := append_dash_cancel _ (repr_no_dash _) (repr_no_dash _) hd
  exact ⟨string_data_inj hth, nat_repr_inj (string_data_inj hrepr)⟩

/-! ### The dedup invariant -/

theorem mapSet_keys_nodup {m : List (String × RawLogEntry)} {k : String} {v : RawLogEntry}
    (h : (m.map Prod.fst).Nodup) : ((mapSet m k v).map Prod.fst).Nodup := by
  unfold mapSet
  split
  · rw [List.map_map]
    have heq : m.map (Prod.fst ∘ fun p => if p.1 == k then (k, v) else p) = m.map Prod.fst := by
      apply List.map_congr_left
      intro p _
      by_cases hp : p.1 == k
      · simp only [Function.comp_apply, if_pos hp]
        exact (beq_iff_eq.mp hp).symm
      · simp only [Function.comp_apply, if_neg hp]
    rw [heq]
    exact h
  · next hany =>
    rw [List.map_append]
    rw [List.nodup_append]
    refine ⟨h, by simp, ?_⟩
    intro a ha hb
    simp only [List.map_cons, List.map_nil, List.mem_cons, List.not_mem_nil, or_false] at hb
    subst hb
    obtain ⟨p, hp, hpk⟩ := List.mem_map.mp ha
    have hfalse : (m.any fun q => q.1 == a) = false := by
      rw [Bool.not_eq_true] at hany
      exact hany
    have hnk := List.any_eq_false.mp hfalse p hp
    rw [hpk] at hnk
    simp at hnk

theorem mapSet_consistent {m : List (String × RawLogEntry)} {k : String} {v : RawLogEntry}
    (h : ∀ p ∈ m, p.1 = logKey p.2) (hkv : k = logKey v) :
    ∀ p ∈ mapSet m k v, p.1 = logKey p.2 := by
  unfold mapSet
  split
  · intro p hp
    obtain ⟨q, hq, hqp⟩ := List.mem_map.mp hp
    by_cases hqk : q.1 == k
    · rw [if_pos hqk] at hqp
      subst hqp
      exact hkv
    · rw [if_neg hqk] at hqp
      subst hqp
      exact h q hq
  · intro p hp
    rcases List.mem_append.mp hp with hm | hone
    · exact h p hm
    · simp only [List.mem_cons, List.not_mem_nil, or_false] at hone
      subst hone
      exact hkv

theorem filter_mapSet_self {k : String} {v : RawLogEntry} :
    ∀ {m : List (String × RawLogEntry)}, (m.map Prod.fst).Nodup →
      (mapSet m k v).filter (fun p => p.1 == k) = [(k, v)] := by
  intro m
  induction m with
  | nil =>
    intro _
    simp [mapSet]
  | cons p m' ih =>
    intro hnd
    have hnd' : (m'.map Prod.fst).Nodup := by
      simp only [List.map_cons, List.nodup_cons] at hnd
      exact hnd.2
    have hpnot : p.1 ∉ m'.map Prod.fst := by
      simp only [List.map_cons, List.nodup_cons] at hnd
      exact hnd.1
    unfold mapSet
    by_cases hp : (p.1 == k) = true
    · have hk : p.1 = k := beq_iff_eq.mp hp
      have hany : ((p :: m').any fun q => q.1 == k) = true := by
        simp [List.any_cons, hp]
      rw [if_pos hany, List.map_cons, if_pos hp, List.filter_cons]
      have hcond : (((k, v) : String × RawLogEntry).1 == k) = true := by simp
      rw [if_pos hcond]
      have hrest : (m'.map fun q => if q.1 == k then (k, v) else q).filter
          (fun q => q.1 == k) = [] := by
        rw [List.filter_eq_nil_iff]
        intro a ha
        obtain ⟨q, hq, hqa⟩ := List.mem_map.mp ha
        have hqk : ¬((q.1 == k) = true) := by
          intro hqk
          apply hpnot
          rw [hk, ← beq_iff_eq.mp hqk]
          exact List.mem_map.mpr ⟨q, hq, rfl⟩
        rw [if_neg hqk] at hqa
        subst hqa
        simpa using hqk
      rw [hrest]
    · have hany : ((p :: m').any fun q => q.1 == k) = m'.any fun q => q.1 == k := by
        simp only [List.any_cons, Bool.not_eq_true] at *
        rw [hp]
        simp
      rw [hany]
      by_cases ha : (m'.any fun q => q.1 == k) = true
      · rw [if_pos ha, List.map_cons, if_neg hp, List.filter_cons, if_neg hp]
        have hih := ih hnd'
        unfold mapSet at hih
        rw [if_pos ha] at hih
        exact hih
      · rw [if_neg ha, List.cons_append, List.filter_cons, if_neg hp]
        have hih := ih hnd'
        unfold mapSet at hih
        rw [if_neg ha] at hih
        exact hih

theorem filter_mapSet_other {k' k : String} {v : RawLogEntry} (hne : k' ≠ k) :
    ∀ {m : List (String × RawLogEntry)},
      (mapSet m k' v).filter (fun p => p.1 == k) = m.filter (fun p => p.1 == k) := by
  intro m
  unfold mapSet
  split
  · rw [List.filter_map]
    have hpf : (m.filter ((fun p => p.1 == k) ∘ fun p => if p.1 == k' then (k', v) else p)) =
        m.filter (fun p => p.1 == k) := by
      apply List.filter_congr
      intro p _
      by_cases hp : p.1 == k'
      · simp only [Function.comp_apply, if_pos hp]
        have : p.1 = k' := beq_iff_eq.mp hp
        rw [this]
      · simp only [Function.comp_apply, if_neg hp]
    rw [hpf]
    have hmapid : List.map (fun p => if (p.1 == k') = true then (k', v) else p)
        (m.filter fun p => p.1 == k) = List.map id (m.filter fun p => p.1 == k) := by
      apply List.map_congr_left
      intro p hp
      have hpk : (p.1 == k) = true := (List.mem_filter.mp hp).2
      have hnk : ¬((p.1 == k') = true) := by
        intro hc
        exact hne (by rw [← beq_iff_eq.mp hc, beq_iff_eq.mp hpk])
      simp only [if_neg hnk, id]
    rw [hmapid, List.map_id]
  · rw [List.filter_append]
    have : ([(k', v)].filter (fun p => p.1 == k)) = [] := by
      simp only [List.filter_cons, List.filter_nil]
      rw [if_neg (by simpa using hne)]
    rw [this, List.append_nil]

theorem dedupFold_consistent :
    ∀ (logs : List RawLogEntry) (m : List (String × RawLogEntry)),
      (∀ p ∈ m, p.1 = logKey p.2) →
      ∀ p ∈ logs.foldl dedupStep m, p.1 = logKey p.2 := by
  intro logs
  induction logs with
  | nil =>
    intro m hm
    simpa using hm
  | cons log rest ih =>
    intro m hm
    rw [List.foldl_cons]
    exact ih _ (mapSet_consistent hm rfl)

theorem dedupFold_keys_nodup :
    ∀ (logs : List RawLogEntry) (m : List (String × RawLogEntry)),
      (m.map Prod.fst).Nodup →
      ((logs.foldl dedupStep m).map Prod.fst).Nodup := by
  intro logs
  induction logs with
  | nil =>
    intro m hm
    simpa using hm
  | cons log rest ih =>
    intro m hm
    rw [List.foldl_cons]
    exact ih _ (mapSet_keys_nodup hm)

theorem dedupFold_filter (k : String) :
    ∀ (logs : List RawLogEntry) (m : List (String × RawLogEntry)),
      (m.map Prod.fst).Nodup →
      (logs.foldl dedupStep m).filter (fun p => p.1 == k) =
        (match (logs.filter (fun log => logKey log == k)).getLast? with
          | some v => [(k, v)]
          | none => m.filter (fun p => p.1 == k)) := by
  intro logs
  induction logs with
  | nil =>
    intro m hm
    simp
  | cons log rest ih =>
    intro m hm
    rw [List.foldl_cons, List.filter_cons]
    by_cases hk : logKey log == k
    · rw [if_pos hk]
      cases hrest : (rest.filter fun l => logKey l == k).getLast? with
      | some v =>
        have hne : rest.filter (fun l => logKey l == k) ≠ [] := by
          intro hnil
          rw [hnil] at hrest
          simp at hrest
        obtain ⟨y, ys, hys⟩ := List.exists_cons_of_ne_nil hne
        have hlast : (log :: rest.filter fun l => logKey l == k).getLast? = some v := by
          rw [hys, List.getLast?_cons_cons, ← hys, hrest]
        rw [hlast]
        have := ih (dedupStep m log) (mapSet_keys_nodup hm)
        rw [hrest] at this
        exact this
      | none =>
        have hnil : rest.filter (fun l => logKey l == k) = [] :=
          List.getLast?_eq_none_iff.mp hrest
        rw [hnil]
        simp only [List.getLast?_cons, List.getLast?_nil, Option.getD_none]
        have := ih (dedupStep m log) (mapSet_keys_nodup hm)
        rw [hrest] at this
        rw [this]
        unfold dedupStep
        have hkey : logKey log = k := beq_iff_eq.mp hk
        rw [hkey]
        exact filter_mapSet_self hm
    · rw [if_neg hk]
      have := ih (dedupStep m log) (mapSet_keys_nodup hm)
      cases hrest : (rest.filter fun l => logKey l == k).getLast? with
      | some v =>
        rw [hrest] at this
        rw [this]
      | none =>
        rw [hrest] at this
        rw [this]
        unfold dedupStep
        exact filter_mapSet_other (by simpa using hk)

/-- C3.  Deduplication keeps exactly one raw log entry per distinct
`(transactionHash, logIndex)` key — the last occurrence of that key in
the input — and is idempotent: in particular the same entry fed twice
yields exactly one entry with that key. -/
theorem dedup_last_occurrence (logs : List RawLogEntry) (h : String) (i : Nat) :
    (dedupValues logs).filter (fun l => l.transactionHash == h && l.logIndex == i) =
      ((logs.filter (fun l => l.transactionHash == h && l.logIndex == i)).getLast?).toList ∧
    ∀ log : RawLogEntry, dedupValues [log, log] = [log] := by
  have hpred : ∀ l : RawLogEntry,
      (l.transactionHash == h && l.logIndex == i) = (logKey l == (h ++ "-" ++ Nat.repr i)) := by
    intro l
    rw [Bool.eq_iff_iff]
    simp only [Bool.and_eq_true, beq_iff_eq]
    constructor
    · rintro ⟨h1, h2⟩
      rw [logKey, h1, h2]
    · intro hk
      have hinj := @logKey_inj l (RawLogEntry.mk h i 0 [] "") hk
      exact ⟨hinj.1, hinj.2⟩
  constructor
  · have hcons := dedupFold_consistent logs [] (by simp)
    have hfold := dedupFold_filter (h ++ "-" ++ Nat.repr i) logs [] (by simp)
    unfold dedupValues
    rw [List.filter_map]
    have hcongr : (logs.foldl dedupStep []).filter
        ((fun l => l.transactionHash == h && l.logIndex == i) ∘ Prod.snd) =
        (logs.foldl dedupStep []).filter (fun p => p.1 == (h ++ "-" ++ Nat.repr i)) := by
      apply List.filter_congr
      intro p hp
      simp only [Function.comp_apply]
      rw [hpred p.2, hcons p hp]
    rw [hcongr, hfold]
    have hlogs : logs.filter (fun log => logKey log == (h ++ "-" ++ Nat.repr i)) =
        logs.filter (fun l => l.transactionHash == h && l.logIndex == i) := by
      apply List.filter_congr
      intro l _
      exact (hpred l).symm
    rw [hlogs]
    cases hg : (logs.filter (fun l => l.transactionHash == h && l.logIndex == i)).getLast? with
    | some v =>
      simp
    | none =>
      simp
  · intro log
    simp [dedupValues, dedupStep, mapSet]

/-! ## Event decoder and pipeline rows (eth.ts lines 124–159 /
React variant lines 164–185, 281–283)

`iface.parseLog` is an external `ethers` call; it enters the model as a
function `parse : RawLogEntry → Option GameResultArgs`, where `none`
stands for both a thrown decode error and a `null` parse result (the
source maps each to a dropped entry).  The decoded record is built from
the log's block number / transaction hash and the nine event arguments
exactly as in the source. -/

/-- The nine arguments of `GameResultEvent`, as destructured from
`parsed.args`.  `gameNumber` is the `uint256` field after the source's
`Number(gameNumber.toString())` narrowing. -/
structure GameResultArgs where
  gameNumber : Nat
  gameId : String
  startedAt : String
  winningPlayer : String
  winningClasses : String
  losingPlayer : String
  losingClasses : String
  gameLength : String
  endReason : String
deriving Repr, DecidableEq

/-- A decoded match record (`Row` in the Next.js front end). -/
structure MatchRecord where
  blockNumber : Nat
  txHash : String
  gameNumber : Nat
  gameId : String
  startedAt : String
  winningPlayer : String
  winningClasses : String
  losingPlayer : String
  losingClasses : String
  gameLength : String
  endReason : String
deriving Repr, DecidableEq

/-- The record literal built from a successfully parsed log
(eth.ts lines 142–154). -/
def mkMatchRecord (log : RawLogEntry) (a : GameResultArgs) : MatchRecord :=
  { blockNumber := log.blockNumber
    txHash := log.transactionHash
    gameNumber := a.gameNumber
    gameId := a.gameId
    startedAt := a.startedAt
    winningPlayer := a.winningPlayer
    winningClasses := a.winningClasses
    losingPlayer := a.losingPlayer
    losingClasses := a.losingClasses
    gameLength := a.gameLength
    endReason := a.endReason }

/-- `decodeGameResult` (React variant lines 164–185) and the inline
`try { parseLog … } catch { return null }` of eth.ts lines 125–158:
a decode failure yields `none` for that entry alone. -/
def decodeGameResult (parse : RawLogEntry → Option GameResultArgs)
    (log : RawLogEntry) : Option MatchRecord :=
  match parse log with
  | none => none
  | some a => some (mkMatchRecord log a)

/-- `.map(decode…).filter(Boolean)` (eth.ts lines 124–159 / React
variant line 281). -/
def rowsOf (parse : RawLogEntry → Option GameResultArgs)
    (logs : List RawLogEntry) : List MatchRecord :=
  (logs.map (decodeGameResult parse)).filterMap id

/-- The rows returned by the eth.ts handler (lines 117–162): dedup the
accumulated logs, decode, drop failures — and return in that order,
with no sort. -/
def handlerRows (parse : RawLogEntry → Option GameResultArgs)
    (allLogs : List RawLogEntry) : List MatchRecord :=
  rowsOf parse (dedupValues allLogs)

/-- The ascending-`blockNumber` comparison of
`decoded.sort((a, b) => a.blockNumber - b.blockNumber)`. -/
def blockLe (a b : MatchRecord) : Bool := a.blockNumber ≤ b.blockNumber

/-- The rows displayed by the React variant's `handleRun` (lines
271–283): same dedup + decode, then a stable ascending sort by
`blockNumber` (JavaScript `Array.prototype.sort` is stable; `mergeSort`
is its model). -/
def handleRunRows (parse : RawLogEntry → Option GameResultArgs)
    (allLogs : List RawLogEntry) : List MatchRecord :=
  (rowsOf parse (dedupValues allLogs)).mergeSort blockLe

/-- The outcome of one handler run after date resolution: the `ok`
flag, the returned rows, and the list of `eth_getLogs` spans issued. -/
structure RunResult where
  ok : Bool
  rows : List MatchRecord
  requests : List BlockSpan
deriving Repr, DecidableEq

/-- The eth.ts handler after date resolution (lines 98–162): on
`toBlock < fromBlock` return `{ ok: true, rows: [] }` immediately,
fetching nothing; otherwise fetch every span of `buildRanges`,
accumulate the raw logs, dedup, decode.  `fetch` is the environment's
per-span `eth_getLogs` result; the grouping into batches of 8 spans
per RPC call only affects transport round-trips, so with responses in
request order the accumulated list is the concatenation of the
per-span results. -/
def handlerRun (parse : RawLogEntry → Option GameResultArgs)
    (fetch : BlockSpan → List RawLogEntry) (fromBlock toBlock : Nat) : RunResult :=
  if toBlock < fromBlock then
    { ok := true, rows := [], requests := [] }
  else
    let ranges := buildRanges fromBlock toBlock
    { ok := true
      rows := handlerRows parse ((ranges.map fetch).flatten)
      requests := ranges }

/-- C8.  When date resolution yields `toBlock < fromBlock`, the handler
returns an `ok` outcome with zero rows and issues no `eth_getLogs`
request at all. -/
theorem handlerRun_empty_range (parse : RawLogEntry → Option GameResultArgs)
    (fetch : BlockSpan → List RawLogEntry) (fromBlock toBlock : Nat)
    (h : toBlock < fromBlock) :
    handlerRun parse fetch fromBlock toBlock =
      { ok := true, rows := [], requests := [] } := by
  unfold handlerRun
  rw [if_pos h]

/-- Witness for C8 at `fromBlock = 5`, `toBlock = 3`. -/
theorem handlerRun_empty_range_witness :
    3 < 5 ∧
    handlerRun (fun _ => none) (fun _ => []) 5 3 =
      { ok := true, rows := [], requests := [] } :=
  ⟨by decide, handlerRun_empty_range (fun _ => none) (fun _ => []) 5 3 (by decide)⟩

theorem rowsOf_eq_filterMap (parse : RawLogEntry → Option GameResultArgs)
    (logs : List RawLogEntry) :
    rowsOf parse logs = logs.filterMap (decodeGameResult parse) := by
  unfold rowsOf
  induction logs with
  | nil => rfl
  | cons l ls ih =>
    rw [List.map_cons, List.filterMap_cons, List.filterMap_cons]
    cases hd : decodeGameResult parse l with
    | none => simp [ih]
    | some r => simp [ih]

/-- C9.  Decoding is per-entry total: an entry whose decode fails is
dropped from the output on its own, while every other entry of the
same batch is still decoded — one malformed entry never aborts the
batch. -/
theorem decode_per_entry (parse : RawLogEntry → Option GameResultArgs)
    (l1 l2 : List RawLogEntry) (bad : RawLogEntry) (hbad : parse bad = none) :
    rowsOf parse (l1 ++ bad :: l2) = rowsOf parse l1 ++ rowsOf parse l2 ∧
    ∀ log ∈ l1 ++ bad :: l2, ∀ a, parse log = some a →
      mkMatchRecord log a ∈ rowsOf parse (l1 ++ bad :: l2) := by
  constructor
  · rw [rowsOf_eq_filterMap, rowsOf_eq_filterMap, rowsOf_eq_filterMap,
      List.filterMap_append, List.filterMap_cons]
    have hdec : decodeGameResult parse bad = none := by
      unfold decodeGameResult
      rw [hbad]
    rw [hdec]
  · intro log hlog a ha
    rw [rowsOf_eq_filterMap]
    refine List.mem_filterMap.mpr ⟨log, hlog, ?_⟩
    unfold decodeGameResult
    rw [ha]

/-- Witness for C9: a batch of three logs whose middle entry fails to
decode still yields both of the other two rows. -/
theorem decode_per_entry_witness :
    (fun lg : RawLogEntry => if lg.blockNumber == 0 then none
        else some (⟨1, "g", "s", "w", "wc", "l", "lc", "gl", "r"⟩ : GameResultArgs))
      ⟨"0xb", 0, 0, [], ""⟩ = none ∧
    rowsOf (fun lg : RawLogEntry => if lg.blockNumber == 0 then none
        else some (⟨1, "g", "s", "w", "wc", "l", "lc", "gl", "r"⟩ : GameResultArgs))
      ([⟨"0xa", 0, 1, [], ""⟩] ++ ⟨"0xb", 0, 0, [], ""⟩ :: [⟨"0xc", 0, 2, [], ""⟩]) =
      rowsOf (fun lg : RawLogEntry => if lg.blockNumber == 0 then none
        else some (⟨1, "g", "s", "w", "wc", "l", "lc", "gl", "r"⟩ : GameResultArgs))
        [⟨"0xa", 0, 1, [], ""⟩] ++
      rowsOf (fun lg : RawLogEntry => if lg.blockNumber == 0 then none
        else some (⟨1, "g", "s", "w", "wc", "l", "lc", "gl", "r"⟩ : GameResultArgs))
        [⟨"0xc", 0, 2, [], ""⟩] :=
  ⟨by decide,
    (decode_per_entry _ [⟨"0xa", 0, 1, [], ""⟩] [⟨"0xc", 0, 2, [], ""⟩]
      ⟨"0xb", 0, 0, [], ""⟩ (by decide)).1⟩

/-- C6 counterexample.  The eth.ts handler returns `rows` in
dedup/fetch order with no sort (there is no `.sort` between lines 100
and 162).  The JSON-RPC 2.0 spec lets a server return the items of a
batch response in any order, and the handler concatenates
`item.result` in arrival order without matching request ids, so an
environment that delivers a block-5 log before a block-3 log produces
rows that are not in ascending `blockNumber` order. -/
theorem handlerRows_unsorted_counterexample :
    (handlerRows (fun _ => some ⟨1, "g", "s", "w", "wc", "l", "lc", "gl", "r"⟩)
        [⟨"0xa", 0, 5, [], ""⟩, ⟨"0xb", 0, 3, [], ""⟩]).map MatchRecord.blockNumber =
      [5, 3] ∧
    ¬ List.Sorted (· ≤ ·)
      ((handlerRows (fun _ => some ⟨1, "g", "s", "w", "wc", "l", "lc", "gl", "r"⟩)
        [⟨"0xa", 0, 5, [], ""⟩, ⟨"0xb", 0, 3, [], ""⟩]).map MatchRecord.blockNumber) := by
  constructor
  · decide
  · intro hs
    have h5 : (5 : Nat) ≤ 3 := by
      have hmap : (handlerRows (fun _ => some ⟨1, "g", "s", "w", "wc", "l", "lc", "gl", "r"⟩)
          [⟨"0xa", 0, 5, [], ""⟩, ⟨"0xb", 0, 3, [], ""⟩]).map MatchRecord.blockNumber =
          [5, 3] := by decide
      rw [hmap] at hs
      exact List.rel_of_sorted_cons hs 3 (by simp)
    omega

theorem blockLe_trans (a b c : MatchRecord) :
    blockLe a b → blockLe b c → blockLe a c := by
  unfold blockLe
  intro h1 h2
  simp only [decide_eq_true_eq] at *
  omega

theorem blockLe_total (a b : MatchRecord) : blockLe a b || blockLe b a := by
  unfold blockLe
  rcases Nat.le_total a.blockNumber b.blockNumber with h | h
  · simp [h]
  · simp [h]

/-- C6 (amended).  The React variant's `handleRun` sorts the decoded
records stably by ascending `blockNumber` before presenting them: the
displayed sequence is sorted, is a permutation of the decoded rows,
and any two records already in `blockLe` order in the decoded sequence
(in particular any two with equal `blockNumber`) keep their relative
order.  The eth.ts API handler returns `handlerRows` unsorted, so its
output is ascending only when the underlying fetch order is. -/
theorem handleRunRows_sorted_stable (parse : RawLogEntry → Option GameResultArgs)
    (allLogs : List RawLogEntry) :
    List.Sorted (fun a b : MatchRecord => a.blockNumber ≤ b.blockNumber)
      (handleRunRows parse allLogs) ∧
    (handleRunRows parse allLogs).Perm (handlerRows parse allLogs) ∧
    ∀ a b : MatchRecord, a.blockNumber ≤ b.blockNumber →
      List.Sublist [a, b] (handlerRows parse allLogs) →
      List.Sublist [a, b] (handleRunRows parse allLogs) := by
  refine ⟨?_, ?_, ?_⟩
  · have hp := List.sorted_mergeSort
      (fun a b c => blockLe_trans a b c) (fun a b => blockLe_total a b)
      (rowsOf parse (dedupValues allLogs))
    unfold handleRunRows
    refine List.Pairwise.imp ?_ hp
    intro a b h
    have := of_decide_eq_true h
    exact this
  · exact List.mergeSort_perm _ _
  · intro a b hab hsub
    unfold handleRunRows
    exact List.pair_sublist_mergeSort (fun a b c => blockLe_trans a b c)
      (fun a b => blockLe_total a b) (decide_eq_true hab) hsub

/-- Witness for C6 (amended): two decoded records with equal block
number 7 keep their original order through the sort. -/
theorem handleRunRows_sorted_stable_witness :
    (7 : Nat) ≤ 7 ∧
    List.Sublist
      [mkMatchRecord ⟨"0xa", 0, 7, [], ""⟩ ⟨1, "g", "s", "w", "wc", "l", "lc", "gl", "r"⟩,
        mkMatchRecord ⟨"0xb", 0, 7, [], ""⟩ ⟨1, "g", "s", "w", "wc", "l", "lc", "gl", "r"⟩]
      (handlerRows (fun _ => some ⟨1, "g", "s", "w", "wc", "l", "lc", "gl", "r"⟩)
        [⟨"0xa", 0, 7, [], ""⟩, ⟨"0xb", 0, 7, [], ""⟩]) ∧
    List.Sublist
      [mkMatchRecord ⟨"0xa", 0, 7, [], ""⟩ ⟨1, "g", "s", "w", "wc", "l", "lc", "gl", "r"⟩,
        mkMatchRecord ⟨"0xb", 0, 7, [], ""⟩ ⟨1, "g", "s", "w", "wc", "l", "lc", "gl", "r"⟩]
      (handleRunRows (fun _ => some ⟨1, "g", "s", "w", "wc", "l", "lc", "gl", "r"⟩)
        [⟨"0xa", 0, 7, [], ""⟩, ⟨"0xb", 0, 7, [], ""⟩]) :=
  ⟨by decide, by decide,
    (handleRunRows_sorted_stable (fun _ => some ⟨1, "g", "s", "w", "wc", "l", "lc", "gl", "r"⟩)
      [⟨"0xa", 0, 7, [], ""⟩, ⟨"0xb", 0, 7, [], ""⟩]).2.2
      (mkMatchRecord ⟨"0xa", 0, 7, [], ""⟩ ⟨1, "g", "s", "w", "wc", "l", "lc", "gl", "r"⟩)
      (mkMatchRecord ⟨"0xb", 0, 7, [], ""⟩ ⟨1, "g", "s", "w", "wc", "l", "lc", "gl", "r"⟩)
      (by decide) (by decide)⟩

/-! ## Aggregator (Next.js front end lines 51–69 / React variant lines
203–220): `stats` and `filtered`

Player matching normalizes both sides with JavaScript
`.trim().toLowerCase()`.  `trim` drops whitespace from both ends;
`toLowerCase` lower-cases (the ASCII range suffices for the
letter data involved).  `winrate = total ? wins / total : 0` is exact
rational division here (ℚ); the division-by-zero guard is the point of
the claim. -/

/-- JavaScript `String.prototype.trim`: strip leading and trailing
whitespace. -/
def jsTrim (s : String) : String :=
  ⟨((s.data.dropWhile Char.isWhitespace).reverse.dropWhile Char.isWhitespace).reverse⟩

/-- ASCII lower-casing of one character. -/
def lowerChar (c : Char) : Char :=
  if 'A' ≤ c ∧ c ≤ 'Z' then Char.ofNat (c.toNat + 32) else c

/-- JavaScript `String.prototype.toLowerCase`. -/
def jsToLowerCase (s : String) : String := ⟨s.data.map lowerChar⟩

/-- The normalization `x.trim().toLowerCase()` applied to the query
name and to each record's winner/loser fields. -/
def normName (s : String) : String := jsToLowerCase (jsTrim s)

structure PlayerStats where
  wins : Nat
  losses : Nat
  total : Nat
  winrate : ℚ
deriving Repr, DecidableEq

/-- `stats` (Next.js front end lines 51–58). -/
def stats (rows : List MatchRecord) (player : String) : PlayerStats :=
  let p := normName player
  let wins := (rows.filter fun r => normName r.winningPlayer == p).length
  let losses := (rows.filter fun r => normName r.losingPlayer == p).length
  let total := wins + losses
  let winrate : ℚ := if total ≠ 0 then (wins : ℚ) / (total : ℚ) else 0
  { wins := wins, losses := losses, total := total, winrate := winrate }

structure PlayerMatchView where
  record : MatchRecord
  result : String
  opponent : String
deriving Repr, DecidableEq

/-- `filtered` (Next.js front end lines 60–69): the per-player match
view with `result` and `opponent`. -/
def filtered (rows : List MatchRecord) (player : String) : List PlayerMatchView :=
  let p := normName player
  (rows.filter fun r =>
      normName r.winningPlayer == p || normName r.losingPlayer == p).map fun r =>
    { record := r
      result := if normName r.winningPlayer == p then "W" else "L"
      opponent := if normName r.winningPlayer == p then r.losingPlayer else r.winningPlayer }

/-- C4.  `wins` counts records whose normalized winner equals the
normalized player name, `losses` symmetrically on the loser,
`total = wins + losses`, and `winrate` is `wins / (wins + losses)` with
value `0` (not an error) when the denominator is zero. -/
theorem stats_spec (rows : List MatchRecord) (player : String) :
    (stats rows player).wins =
      (rows.filter fun r => normName r.winningPlayer == normName player).length ∧
    (stats rows player).losses =
      (rows.filter fun r => normName r.losingPlayer == normName player).length ∧
    (stats rows player).total = (stats rows player).wins + (stats rows player).losses ∧
    ((stats rows player).wins + (stats rows player).losses = 0 →
      (stats rows player).winrate = 0) ∧
    ((stats rows player).wins + (stats rows player).losses ≠ 0 →
      (stats rows player).winrate =
        ((stats rows player).wins : ℚ) /
          (((stats rows player).wins : ℚ) + ((stats rows player).losses : ℚ))) := by
  refine ⟨rfl, rfl, rfl, ?_, ?_⟩
  · intro h
    simp only [stats] at h ⊢
    rw [if_neg (by omega)]
  · intro h
    simp only [stats] at h ⊢
    rw [if_pos (by omega)]
    push_cast
    rfl

/-- Witness for C4 on the spec's example: Alice beats Bob, Bob beats
Alice, Alice beats Carol; player "alice". -/
theorem stats_spec_witness :
    (stats
        [⟨1, "0x1", 1, "g", "s", "Alice", "wc", "Bob", "lc", "gl", "r"⟩,
          ⟨2, "0x2", 2, "g", "s", "Bob", "wc", "Alice", "lc", "gl", "r"⟩,
          ⟨3, "0x3", 3, "g", "s", "Alice", "wc", "Carol", "lc", "gl", "r"⟩]
        "alice").wins +
      (stats
        [⟨1, "0x1", 1, "g", "s", "Alice", "wc", "Bob", "lc", "gl", "r"⟩,
          ⟨2, "0x2", 2, "g", "s", "Bob", "wc", "Alice", "lc", "gl", "r"⟩,
          ⟨3, "0x3", 3, "g", "s", "Alice", "wc", "Carol", "lc", "gl", "r"⟩]
        "alice").losses ≠ 0 ∧
    (stats
        [⟨1, "0x1", 1, "g", "s", "Alice", "wc", "Bob", "lc", "gl", "r"⟩,
          ⟨2, "0x2", 2, "g", "s", "Bob", "wc", "Alice", "lc", "gl", "r"⟩,
          ⟨3, "0x3", 3, "g", "s", "Alice", "wc", "Carol", "lc", "gl", "r"⟩]
        "alice").winrate =
      ((stats
          [⟨1, "0x1", 1, "g", "s", "Alice", "wc", "Bob", "lc", "gl", "r"⟩,
            ⟨2, "0x2", 2, "g", "s", "Bob", "wc", "Alice", "lc", "gl", "r"⟩,
            ⟨3, "0x3", 3, "g", "s", "Alice", "wc", "Carol", "lc", "gl", "r"⟩]
          "alice").wins : ℚ) /
        (((stats
            [⟨1, "0x1", 1, "g", "s", "Alice", "wc", "Bob", "lc", "gl", "r"⟩,
              ⟨2, "0x2", 2, "g", "s", "Bob", "wc", "Alice", "lc", "gl", "r"⟩,
              ⟨3, "0x3", 3, "g", "s", "Alice", "wc", "Carol", "lc", "gl", "r"⟩]
            "alice").wins : ℚ) +
          ((stats
            [⟨1, "0x1", 1, "g", "s", "Alice", "wc", "Bob", "lc", "gl", "r"⟩,
              ⟨2, "0x2", 2, "g", "s", "Bob", "wc", "Alice", "lc", "gl", "r"⟩,
              ⟨3, "0x3", 3, "g", "s", "Alice", "wc", "Carol", "lc", "gl", "r"⟩]
            "alice").losses : ℚ)) :=
  ⟨by decide,
    (stats_spec
      [⟨1, "0x1", 1, "g", "s", "Alice", "wc", "Bob", "lc", "gl", "r"⟩,
        ⟨2, "0x2", 2, "g", "s", "Bob", "wc", "Alice", "lc", "gl", "r"⟩,
        ⟨3, "0x3", 3, "g", "s", "Alice", "wc", "Carol", "lc", "gl", "r"⟩]
      "alice").2.2.2.2 (by decide)⟩

/-- C10.  A record whose normalized winner and normalized loser both
equal the normalized player name is counted once in `wins` and once in
`losses` (contributing 2 to `total`), while the player match view
includes it exactly once, with result `"W"` and the record's own loser
(the player themself) as opponent. -/
theorem self_match_counted_twice (rows : List MatchRecord) (player : String)
    (r : MatchRecord)
    (hw : normName r.winningPlayer = normName player)
    (hl : normName r.losingPlayer = normName player) :
    (stats (r :: rows) player).wins = (stats rows player).wins + 1 ∧
    (stats (r :: rows) player).losses = (stats rows player).losses + 1 ∧
    (stats (r :: rows) player).total = (stats rows player).total + 2 ∧
    filtered (r :: rows) player =
      { record := r, result := "W", opponent := r.losingPlayer } ::
        filtered rows player := by
  have hwb : (normName r.winningPlayer == normName player) = true := beq_iff_eq.mpr hw
  have hlb : (normName r.losingPlayer == normName player) = true := beq_iff_eq.mpr hl
  refine ⟨?_, ?_, ?_, ?_⟩
  · simp [stats, List.filter_cons, hwb]
  · simp [stats, List.filter_cons, hlb]
  · simp only [stats, List.filter_cons, hwb, hlb, if_pos]
    simp only [List.length_cons]
    omega
  · simp [filtered, List.filter_cons, hwb, hlb]
    exact ⟨hw, fun hc => absurd hw hc⟩

/-- Witness for C10: winner "Alice ", loser "ALICE", player "alice". -/
theorem self_match_counted_twice_witness :
    normName "Alice " = normName "alice" ∧
    normName "ALICE" = normName "alice" ∧
    (stats [⟨1, "0x1", 1, "g", "s", "Alice ", "wc", "ALICE", "lc", "gl", "r"⟩]
        "alice").total =
      (stats ([] : List MatchRecord) "alice").total + 2 ∧
    filtered [⟨1, "0x1", 1, "g", "s", "Alice ", "wc", "ALICE", "lc", "gl", "r"⟩]
        "alice" =
      { record := ⟨1, "0x1", 1, "g", "s", "Alice ", "wc", "ALICE", "lc", "gl", "r"⟩,
        result := "W", opponent := "ALICE" } ::
        filtered ([] : List MatchRecord) "alice" :=
  ⟨by decide, by decide,
    (self_match_counted_twice [] "alice"
      ⟨1, "0x1", 1, "g", "s", "Alice ", "wc", "ALICE", "lc", "gl", "r"⟩
      (by decide) (by decide)).2.2.1,
    (self_match_counted_twice [] "alice"
      ⟨1, "0x1", 1, "g", "s", "Alice ", "wc", "ALICE", "lc", "gl", "r"⟩
      (by decide) (by decide)).2.2.2⟩

end Showdown
